import Mathlib

/-!
Verification development for the scoping and dependency-tracking core of
`src/src/core/chuck_type.h` (the `Chuck_Scope` template and the
`Chuck_Value_Dependency_Graph` structure).

Embedding conventions:
* `S_Symbol` is an interned identifier; `insert_symbol` / `S_name` form a
  bijection with strings, so symbols are modelled as the strings themselves.
* A `Chuck_VM_Object *` map cell is `Option Val` with `none` for the NULL
  pointer; `Val` is the identity of a non-null object.
* `std::map<S_Symbol, Chuck_VM_Object *>` is an association list; its
  `operator[]` on an absent key default-inserts a NULL entry, which `mapIndex`
  reproduces.
* The C++ `scope` vector is stored with the head of the list as the innermost
  frame (`scope.back()`), so the outermost frame (`scope.front()`) is the last
  element.
* Reference-count traffic (`CK_SAFE_ADD_REF`, `release()`) is recorded in an
  event log so that claims about releasing can be stated.
-/

set_option autoImplicit false

namespace Chuck

/-- Interned identifier (`S_Symbol`), modelled as its name string. -/
abbrev Sym := String

/-- Identity of a non-null `Chuck_VM_Object`. -/
abbrev Val := Nat

/-- Model of `std::map<S_Symbol, Chuck_VM_Object *>`: association list from
symbol to pointer value (`none` = NULL pointer stored in the map). -/
abbrev SMap := List (Sym × Option Val)

/-- The map read `m.find(k)`: `none` when the key is absent, `some v` for the stored
pointer value (which may itself be NULL, i.e. `none`). -/
def mapFind (m : SMap) (k : Sym) : Option (Option Val) :=
  match m with
  | [] => none
  | (a, v) :: rest => if a = k then some v else mapFind rest k

/-- The map write `m[k] = v`: insert-or-assign. -/
def mapSet (m : SMap) (k : Sym) (v : Option Val) : SMap :=
  match m with
  | [] => [(k, v)]
  | (a, w) :: rest => if a = k then (a, v) :: rest else (a, w) :: mapSet rest k v

/-- Assign a whole list of entries into a map in order
(`for entry in l: m[entry.key] = entry.value`). -/
def mapSetAll (m : SMap) (l : List (Sym × Option Val)) : SMap :=
  List.foldl (fun m2 kv => mapSet m2 kv.1 kv.2) m l

/-- Reading `m[k]` through `std::map::operator[]`: returns the stored value
and the possibly mutated map — an absent key is default-inserted with a NULL
value. -/
def mapIndex (m : SMap) (k : Sym) : Option Val × SMap :=
  match mapFind m k with
  | some v => (v, m)
  | none => (none, m ++ [(k, none)])

/-- A reference-count event: `CK_SAFE_ADD_REF` on a non-null pointer, or a
`release()` call (on a stored value that may be NULL). -/
inductive RC where
  | retain : Val → RC
  | release : Option Val → RC
deriving DecidableEq

/-- The `Chuck_Scope` template state: the frame stack (head = innermost,
i.e. `scope.back()`; last = outermost, i.e. `scope.front()`), the pending
commit buffer, and the log of reference-count events. -/
structure Chuck_Scope where
  scope : List SMap
  commit_map : SMap
  log : List RC
deriving DecidableEq

namespace Chuck_Scope

/-- The `Chuck_Scope()` constructor: `this->push()` on empty state. -/
def mk0 : Chuck_Scope := { scope := [[]], commit_map := [], log := [] }

/-- The innermost frame, `scope.back()`. -/
def back (s : Chuck_Scope) : SMap := s.scope.headD []

/-- The outermost frame, `scope.front()`. -/
def front (s : Chuck_Scope) : SMap := s.scope.getLastD []

/-- The method `push()`: `scope.push_back(new map)`. -/
def push (s : Chuck_Scope) : Chuck_Scope := { s with scope := [] :: s.scope }

/-- The method `pop()`: `delete scope.back(); scope.pop_back();` — the source's own
comment `// TODO: release contents of scope.back()` records that the held
symbols are NOT released, so no release events are logged. -/
def pop (s : Chuck_Scope) : Chuck_Scope := { s with scope := s.scope.tail }

/-- The method `reset()`: `scope.clear(); this->push();` (the commit buffer is not
touched). -/
def reset (s : Chuck_Scope) : Chuck_Scope := { s with scope := [[]] }

/-- Replace the last element of a list (used to write through
`scope.front()`). -/
def setLast : List SMap → SMap → List SMap
  | [], _ => []
  | [_], m => [m]
  | f :: (g :: rest), m => f :: setLast (g :: rest) m

/-- The method `commit()`: every pending-buffer entry is assigned into the outermost
frame (`(*scope.front())[key] = value`), then the buffer is cleared. -/
def commit (s : Chuck_Scope) : Chuck_Scope :=
  { s with
    scope := setLast s.scope (mapSetAll (front s) s.commit_map),
    commit_map := [] }

/-- The method `rollback()`: `release()` is called on every pending-buffer value, then
the buffer is cleared; no frame is touched. -/
def rollback (s : Chuck_Scope) : Chuck_Scope :=
  { s with
    commit_map := [],
    log := s.log ++ s.commit_map.map (fun kv => RC.release kv.2) }

/-- The method `add(xid, value)`: when `scope.back() != scope.front()` (depth above one)
the binding goes into the innermost frame, otherwise into the commit buffer;
then `CK_SAFE_ADD_REF(value)` (a retain on a non-null pointer only).
The empty-stack case is unreachable behind `assert( scope.size() != 0 )`. -/
def add (s : Chuck_Scope) (xid : Sym) (value : Option Val) : Chuck_Scope :=
  let s1 :=
    match s.scope with
    | [] => { s with commit_map := mapSet s.commit_map xid value }
    | [_] => { s with commit_map := mapSet s.commit_map xid value }
    | f :: (g :: rest) => { s with scope := mapSet f xid value :: g :: rest }
  match value with
  | some v => { s1 with log := s1.log ++ [RC.retain v] }
  | none => s1

/-- The `climb > 0` loop of `lookup`: read each frame from innermost to
outermost through `operator[]` (default-inserting a NULL entry into every
frame consulted) and stop at the first non-null value. -/
def climbAll (xid : Sym) : List SMap → Option Val × List SMap
  | [] => (none, [])
  | f :: rest =>
    match mapIndex f xid with
    | (some w, f2) => (some w, f2 :: rest)
    | (none, f2) =>
      match climbAll xid rest with
      | (v, rest2) => (v, f2 :: rest2)

/-- Reading `(*scope.front())[xid]` through `operator[]`: only the outermost
frame is consulted (and possibly default-inserted into). -/
def indexLast (xid : Sym) : List SMap → Option Val × List SMap
  | [] => (none, [])
  | [f] =>
    match mapIndex f xid with
    | (v, f2) => (v, [f2])
  | f :: (g :: rest) =>
    match indexLast xid (g :: rest) with
    | (v, rest2) => (v, f :: rest2)

/-- The method `lookup(xid, climb)`: `climb = 0` reads only the innermost frame, falling
back to the commit buffer only when the innermost frame is also the
outermost; `climb > 0` climbs from innermost to outermost, then the commit
buffer; `climb < 0` reads only the outermost frame, then the commit buffer.
The returned pair is the looked-up value and the mutated scope (frames are
read through `operator[]`, the commit buffer through `find`). -/
def lookup (s : Chuck_Scope) (xid : Sym) (climb : Int) : Option Val × Chuck_Scope :=
  if climb = 0 then
    match s.scope with
    | [] => (none, s)
    | f :: rest =>
      match mapIndex f xid with
      | (v, f2) =>
        let v2 :=
          match v with
          | some w => some w
          | none =>
            if rest = [] then
              if (mapFind s.commit_map xid).isSome then (mapFind s.commit_map xid).getD none
              else none
            else none
        (v2, { s with scope := f2 :: rest })
  else if 0 < climb then
    match climbAll xid s.scope with
    | (v, fs) =>
      let v2 :=
        match v with
        | some w => some w
        | none =>
          if (mapFind s.commit_map xid).isSome then (mapFind s.commit_map xid).getD none
          else none
      (v2, { s with scope := fs })
  else
    match indexLast xid s.scope with
    | (v, fs) =>
      let v2 :=
        match v with
        | some w => some w
        | none =>
          if (mapFind s.commit_map xid).isSome then (mapFind s.commit_map xid).getD none
          else none
      (v2, { s with scope := fs })

/-- The predicate `is_mangled(name)`: the name contains the sentinel character `@`. -/
def is_mangled (name : String) : Bool := name.toList.contains '@'

/-- One pass of the `get_level` output loop over a single map: every entry is
emitted unless mangled names are being excluded and the name is mangled. -/
def levelEntries (includeMangled : Bool) (m : SMap) : List (Option Val) :=
  (m.filter (fun kv => includeMangled || !(is_mangled kv.1))).map (fun kv => kv.2)

/-- The method `get_level(level, out, includeMangled)`: emit the entries of
`scope[level]` (C++ indexing: 0 = outermost), and, when `level = 0`, also the
entries of the commit buffer. -/
def get_level (s : Chuck_Scope) (level : Nat) (includeMangled : Bool) :
    List (Option Val) :=
  levelEntries includeMangled (s.scope.reverse.getD level []) ++
    (if level = 0 then levelEntries includeMangled s.commit_map else [])

/-- The method `get_toplevel(out, includeMangled)` is `get_level(0, out, includeMangled)`. -/
def get_toplevel (s : Chuck_Scope) (includeMangled : Bool) : List (Option Val) :=
  get_level s 0 includeMangled

/-- Fold a list of `add` calls over a scope. -/
def addAll (s : Chuck_Scope) (l : List (Sym × Option Val)) : Chuck_Scope :=
  List.foldl (fun t kv => add t kv.1 kv.2) s l

/-- Spec-side view of searching one map: a binding is a non-null stored
value, so a NULL (default-inserted) entry is no binding. -/
def frameSearch (f : SMap) (id : Sym) : Option Val := (mapFind f id).getD none

/-- Spec-side view of climbing: first match from innermost to outermost. -/
def searchUp (id : Sym) : List SMap → Option Val
  | [] => none
  | f :: rest => Option.or (frameSearch f id) (searchUp id rest)

/-- Spec-side restatement of the lookup contract, following the spec's
words: `climb = 0` searches only the innermost frame, falling back to the
pending buffer only when the innermost frame is also the outermost;
`climb > 0` searches frames from innermost to outermost and then the
pending buffer, first match winning; `climb < 0` searches only the
outermost frame and then the pending buffer. This definition is the
comparison point for the refinement proof about `lookup`. -/
def lookupSpec (s : Chuck_Scope) (id : Sym) (climb : Int) : Option Val :=
  if climb = 0 then
    Option.or (frameSearch (back s) id)
      (if s.scope.length = 1 then frameSearch s.commit_map id else none)
  else if 0 < climb then
    Option.or (searchUp id s.scope) (frameSearch s.commit_map id)
  else
    Option.or (frameSearch (front s) id) (frameSearch s.commit_map id)

/-- The bindings at the outermost level: the outermost frame's entries
followed by the still-pending commit-buffer entries. -/
def topPairs (s : Chuck_Scope) : SMap := front s ++ s.commit_map

end Chuck_Scope

/-- One `Chuck_Value_Dependency`: the tracked value, the code position of the
dependency's definition (`where`), and the position of the use site. -/
structure Chuck_Value_Dependency where
  value : Nat
  where_ : Nat
  use_where : Nat
deriving DecidableEq

/-- One `Chuck_Value_Dependency_Graph` node: its search token, its direct
dependencies, and the indices of its remote graphs. Graphs reference each
other by index into a store, so remote links may form cycles. -/
structure GNode where
  token : Nat
  directs : List Chuck_Value_Dependency
  remotes : List Nat
deriving DecidableEq

/-- The collection of all dependency graphs, indexed by position. -/
abbrev GStore := List GNode

namespace DepGraph

/-- Modelled from the spec: the body of
`Chuck_Value_Dependency_Graph::locateLocal` is not under `src/` (only its
declaration is). Per the spec, it answers whether a recorded direct
dependency has a definition position greater than `pos`; the `isClassDef`
flag is carried but the spec gives it no further local semantics. -/
def locateLocal (n : GNode) (pos : Nat) (isClassDef : Bool) :
    Option Chuck_Value_Dependency :=
  n.directs.find? (fun d => decide (pos < d.where_))

/-- Weight of the still-unvisited portion of the store for a given search
token: each unvisited node contributes one step for itself plus one pending
slot per remote edge. -/
def unvisitedWeight : GStore → Nat → Nat
  | [], _ => 0
  | n :: rest, tok =>
    (if n.token = tok then 0 else 1 + n.remotes.length) + unvisitedWeight rest tok

/-- Modelled from the spec: the body of
`Chuck_Value_Dependency_Graph::locateRecursive` is not under `src/`. The
depth-first traversal: a node whose token already equals the search token is
skipped; otherwise it is marked, its direct dependencies are checked first,
and its remote graphs are then pushed for traversal. The recursion is
instrumented with explicit fuel (`none` = fuel exhausted) so that
termination on cyclic stores is a provable statement rather than an
assumption. -/
def locateRec : Nat → GStore → Nat → Nat → Bool → List Nat →
    Option (Option Chuck_Value_Dependency × GStore)
  | _, store, _, _, _, [] => some (none, store)
  | 0, _, _, _, _, _ :: _ => none
  | fuel + 1, store, tok, pos, icd, g :: rest =>
    match store[g]? with
    | none => locateRec fuel store tok pos icd rest
    | some n =>
      if n.token = tok then locateRec fuel store tok pos icd rest
      else
        let store2 := store.set g { n with token := tok }
        match locateLocal n pos icd with
        | some d => some (some d, store2)
        | none => locateRec fuel store2 tok pos icd (n.remotes ++ rest)

/-- An upper bound on every token present in the store. -/
def maxToken : GStore → Nat
  | [] => 0
  | n :: rest => max n.token (maxToken rest)

/-- Modelled from the spec: the body of
`Chuck_Value_Dependency_Graph::locate` is not under `src/`. Per the spec it
starts a query with a monotonically incremented visitation token (strictly
above every token in the store, so nothing is pre-marked) and runs the
depth-first traversal from the queried graph; the fuel is the traversal's
weight bound, which suffices by `C7_locate_terminates`. -/
def locate (store : GStore) (g : Nat) (pos : Nat) (icd : Bool) :
    Option Chuck_Value_Dependency × GStore :=
  match locateRec (unvisitedWeight store (maxToken store + 1) + 1)
      store (maxToken store + 1) pos icd [g] with
  | some r => r
  | none => (none, store)

/-- Modelled from the spec: the body of
`Chuck_Value_Dependency_Graph::clear` is not under `src/`. Per the header's
own comment it clears all dependencies (direct and remote) of the graph, so
that later `locate` calls return NULL. -/
def clear (store : GStore) (g : Nat) : GStore :=
  match store[g]? with
  | none => store
  | some n => store.set g { n with directs := [], remotes := [] }

/-- Modelled from the spec: `add(const Chuck_Value_Dependency &)` records a
direct dependency on the graph. -/
def addDep (store : GStore) (g : Nat) (d : Chuck_Value_Dependency) : GStore :=
  match store[g]? with
  | none => store
  | some n => store.set g { n with directs := n.directs ++ [d] }

/-- Modelled from the spec: `add(Chuck_Value_Dependency_Graph *)` links a
remote graph. -/
def addRemote (store : GStore) (g : Nat) (h : Nat) : GStore :=
  match store[g]? with
  | none => store
  | some n => store.set g { n with remotes := n.remotes ++ [h] }

end DepGraph

/-! ### Association-list lemmas -/

theorem mapFind_mapSet_self (m : SMap) (k : Sym) (v : Option Val) :
    mapFind (mapSet m k v) k = some v := by
  induction m with
  | nil => simp [mapSet, mapFind]
  | cons a rest ih =>
    obtain ⟨a1, a2⟩ := a
    by_cases h : a1 = k <;> simp [mapSet, mapFind, h, ih]

theorem mapFind_mapSet_ne (m : SMap) (k k2 : Sym) (v : Option Val) (h : k ≠ k2) :
    mapFind (mapSet m k v) k2 = mapFind m k2 := by
  induction m with
  | nil => simp [mapSet, mapFind, h]
  | cons a rest ih =>
    obtain ⟨a1, a2⟩ := a
    by_cases h1 : a1 = k
    · subst h1
      simp [mapSet, mapFind, h]
    · simp [mapSet, mapFind, h1, ih]

theorem mapFind_eq_none_of_not_mem (m : SMap) (k : Sym)
    (h : k ∉ m.map Prod.fst) : mapFind m k = none := by
  induction m with
  | nil => rfl
  | cons a rest ih =>
    simp only [List.map_cons, List.mem_cons, not_or] at h
    simp [mapFind, Ne.symm h.1, ih h.2]

theorem keys_mapSet (m : SMap) (k : Sym) (v : Option Val) :
    (mapSet m k v).map Prod.fst =
      if k ∈ m.map Prod.fst then m.map Prod.fst else m.map Prod.fst ++ [k] := by
  induction m with
  | nil => simp [mapSet]
  | cons a rest ih =>
    obtain ⟨a1, a2⟩ := a
    by_cases h : a1 = k
    · subst h
      simp [mapSet]
    · by_cases h2 : k ∈ rest.map Prod.fst <;>
        simp [mapSet, h, Ne.symm h, h2, ih]

theorem nodup_keys_mapSet (m : SMap) (k : Sym) (v : Option Val)
    (h : (m.map Prod.fst).Nodup) : ((mapSet m k v).map Prod.fst).Nodup := by
  rw [keys_mapSet]
  by_cases hk : k ∈ m.map Prod.fst
  · simpa [hk] using h
  · simp [hk, List.nodup_append, h]

theorem mapSetAll_nil (m : SMap) : mapSetAll m [] = m := rfl

theorem mapSetAll_cons (m : SMap) (kv : Sym × Option Val)
    (l : List (Sym × Option Val)) :
    mapSetAll m (kv :: l) = mapSetAll (mapSet m kv.1 kv.2) l := rfl

theorem nodup_keys_mapSetAll (l : List (Sym × Option Val)) (m : SMap)
    (h : (m.map Prod.fst).Nodup) : ((mapSetAll m l).map Prod.fst).Nodup := by
  induction l generalizing m with
  | nil => exact h
  | cons kv rest ih => exact ih _ (nodup_keys_mapSet m kv.1 kv.2 h)

theorem mapFind_mapSetAll_not_mem (l : List (Sym × Option Val)) (m : SMap)
    (k : Sym) (h : k ∉ l.map Prod.fst) :
    mapFind (mapSetAll m l) k = mapFind m k := by
  induction l generalizing m with
  | nil => rfl
  | cons kv rest ih =>
    simp only [List.map_cons, List.mem_cons, not_or] at h
    rw [mapSetAll_cons, ih _ h.2, mapFind_mapSet_ne _ _ _ _ (Ne.symm h.1)]

theorem mapFind_mapSetAll_nodup (l : List (Sym × Option Val)) (m : SMap)
    (k : Sym) (h : (l.map Prod.fst).Nodup) :
    mapFind (mapSetAll m l) k = Option.or (mapFind l k) (mapFind m k) := by
  induction l generalizing m with
  | nil => simp [mapSetAll_nil, mapFind]
  | cons kv rest ih =>
    obtain ⟨a, va⟩ := kv
    simp only [List.map_cons, List.nodup_cons] at h
    rw [mapSetAll_cons, ih _ h.2]
    by_cases hk : a = k
    · subst hk
      rw [mapFind_eq_none_of_not_mem rest a h.1, mapFind_mapSet_self]
      simp [mapFind]
    · rw [mapFind_mapSet_ne _ _ _ _ hk]
      simp [mapFind, hk]

theorem mapFind_mapSetAll_mem_isSome (l : List (Sym × Option Val)) (m : SMap)
    (k : Sym) (hk : k ∈ l.map Prod.fst) (hv : ∀ kv ∈ l, kv.2.isSome = true) :
    ∃ v, mapFind (mapSetAll m l) k = some (some v) := by
  induction l generalizing m with
  | nil => simp at hk
  | cons kv rest ih =>
    obtain ⟨a, va⟩ := kv
    by_cases hr : k ∈ rest.map Prod.fst
    · exact ih _ hr (fun p hp => hv p (List.mem_cons_of_mem _ hp))
    · have hak : a = k := by
        simp only [List.map_cons, List.mem_cons] at hk
        rcases hk with h1 | h1
        · exact h1.symm
        · exact absurd h1 hr
      subst hak
      have hva : va.isSome = true := hv (a, va) (List.mem_cons_self _ _)
      obtain ⟨v, hv2⟩ := Option.isSome_iff_exists.mp hva
      refine ⟨v, ?_⟩
      rw [mapSetAll_cons, mapFind_mapSetAll_not_mem rest _ a hr,
        mapFind_mapSet_self]
      simp [hv2]

/-! ### Frame-stack structure lemmas -/

namespace Chuck_Scope

theorem setLast_getLastD (l : List SMap) (m d : SMap) (h : l ≠ []) :
    (setLast l m).getLastD d = m := by
  induction l with
  | nil => exact absurd rfl h
  | cons a rest ih =>
    cases rest with
    | nil => rfl
    | cons b rest2 =>
      have : (setLast (a :: b :: rest2) m) = a :: setLast (b :: rest2) m := rfl
      rw [this]
      have h2 : setLast (b :: rest2) m ≠ [] := by
        cases rest2 <;> simp [setLast]
      rw [List.getLastD_cons]
      calc (setLast (b :: rest2) m).getLastD a
          = (setLast (b :: rest2) m).getLast (by simpa using h2) := by
            rw [List.getLastD_eq_getLast?, List.getLast?_eq_getLast _ (by simpa using h2)]
            rfl
        _ = (setLast (b :: rest2) m).getLastD d := by
            rw [List.getLastD_eq_getLast?, List.getLast?_eq_getLast _ (by simpa using h2)]
            rfl
        _ = m := ih (by simp)

theorem setLast_dropLast (l : List SMap) (m : SMap) :
    (setLast l m).dropLast = l.dropLast := by
  induction l with
  | nil => rfl
  | cons a rest ih =>
    cases rest with
    | nil => rfl
    | cons b rest2 =>
      have h1 : (setLast (a :: b :: rest2) m) = a :: setLast (b :: rest2) m := rfl
      have h2 : setLast (b :: rest2) m ≠ [] := by
        cases rest2 <;> simp [setLast]
      rw [h1]
      rw [List.dropLast_cons_of_ne_nil h2, List.dropLast_cons_of_ne_nil (by simp), ih]

theorem setLast_length (l : List SMap) (m : SMap) :
    (setLast l m).length = l.length := by
  induction l with
  | nil => rfl
  | cons a rest ih =>
    cases rest with
    | nil => rfl
    | cons b rest2 => simpa [setLast] using ih

theorem reverse_getD_zero (l : List SMap) :
    l.reverse.getD 0 [] = l.getLastD [] := by
  have h1 : l.reverse.getD 0 [] = l.reverse.headD [] := by
    cases hr : l.reverse <;> simp
  rw [h1, List.headD_eq_head?, List.head?_reverse, List.getLastD_eq_getLast?]

theorem pop_push (s : Chuck_Scope) : pop (push s) = s := rfl

theorem front_commit (s : Chuck_Scope) (h : s.scope ≠ []) :
    front (commit s) = mapSetAll (front s) s.commit_map := by
  unfold front commit
  exact setLast_getLastD _ _ _ h

theorem commit_commit_map (s : Chuck_Scope) : (commit s).commit_map = [] := rfl

/-! ### Lookup refinement lemmas -/

theorem mapIndex_fst (m : SMap) (k : Sym) :
    (mapIndex m k).1 = (mapFind m k).getD none := by
  unfold mapIndex
  cases mapFind m k <;> rfl

theorem mapIndex_snd_of_find_eq_none (m : SMap) (k : Sym)
    (h : mapFind m k = none) : (mapIndex m k).2 = m ++ [(k, none)] := by
  simp [mapIndex, h]

theorem mapIndex_snd_of_find_isSome (m : SMap) (k : Sym)
    (h : (mapFind m k).isSome = true) : (mapIndex m k).2 = m := by
  obtain ⟨v, hv⟩ := Option.isSome_iff_exists.mp h
  simp [mapIndex, hv]

theorem climbAll_fst (id : Sym) (fs : List SMap) :
    (climbAll id fs).1 = searchUp id fs := by
  induction fs with
  | nil => rfl
  | cons f rest ih =>
    unfold climbAll
    rcases hm : mapIndex f id with ⟨v, f2⟩
    have hv : v = (mapFind f id).getD none := by rw [← mapIndex_fst, hm]
    cases v with
    | some w => simp [hm, searchUp, frameSearch, ← hv]
    | none =>
      rcases hc : climbAll id rest with ⟨v2, rest2⟩
      have hv2 : v2 = searchUp id rest := by rw [← ih, hc]
      simp [hm, hc, searchUp, frameSearch, ← hv, hv2]

theorem indexLast_fst (id : Sym) (fs : List SMap) :
    (indexLast id fs).1 = frameSearch (fs.getLastD []) id := by
  induction fs with
  | nil => simp [indexLast, frameSearch, mapFind]
  | cons f rest ih =>
    cases rest with
    | nil =>
      unfold indexLast
      rcases hm : mapIndex f id with ⟨v, f2⟩
      have hv : v = (mapFind f id).getD none := by rw [← mapIndex_fst, hm]
      simp [hm, frameSearch, ← hv]
    | cons g rest2 =>
      unfold indexLast
      rcases hm : indexLast id (g :: rest2) with ⟨v, rest3⟩
      have hv : v = frameSearch ((g :: rest2).getLastD []) id := by
        rw [← ih, hm]
      simp [hm, hv, List.getLastD_cons]

theorem commitVal_or (cm : SMap) (id : Sym) :
    (if (mapFind cm id).isSome then (mapFind cm id).getD none else none)
      = frameSearch cm id := by
  unfold frameSearch
  cases mapFind cm id <;> simp

theorem lookup_fst (s : Chuck_Scope) (id : Sym) (climb : Int)
    (h : s.scope ≠ []) : (s.lookup id climb).1 = lookupSpec s id climb := by
  unfold lookup lookupSpec
  by_cases h0 : climb = 0
  · simp only [h0, if_true]
    cases hs : s.scope with
    | nil => exact absurd hs h
    | cons f rest =>
      have hb : back s = f := by unfold back; rw [hs]; rfl
      rw [hb]
      cases hj : (mapFind f id).getD none with
      | some w => simp [mapIndex_fst, hj, frameSearch]
      | none =>
        cases hr : rest with
        | nil =>
          have hlen : s.scope.length = 1 := by rw [hs, hr]; rfl
          simp [mapIndex_fst, hj, frameSearch, hlen, commitVal_or]
        | cons g rest2 =>
          have hlen : s.scope.length ≠ 1 := by rw [hs, hr]; simp
          simp [mapIndex_fst, hj, frameSearch, hlen]
  · by_cases h1 : 0 < climb
    · simp only [h0, if_false, h1, if_true]
      rcases hc : climbAll id s.scope with ⟨v, fs⟩
      have hv : v = searchUp id s.scope := by rw [← climbAll_fst, hc]
      cases v with
      | some w => simp [hc, ← hv]
      | none => simp [hc, ← hv, commitVal_or]
    · simp only [h0, if_false, h1, if_false]
      rcases hc : indexLast id s.scope with ⟨v, fs⟩
      have hv : frameSearch (front s) id = v := by
        rw [show front s = s.scope.getLastD [] from rfl, ← indexLast_fst, hc]
      rw [hv]
      cases v with
      | some w => simp
      | none => rw [commitVal_or]; simp

/-! ### Structure of `add`, `addAll` and `commit` -/

theorem add_depth1 (s : Chuck_Scope) (xid : Sym) (v : Option Val)
    (h : s.scope.length ≤ 1) :
    (add s xid v).scope = s.scope ∧
      (add s xid v).commit_map = mapSet s.commit_map xid v := by
  unfold add
  cases hsc : s.scope with
  | nil => cases v <;> simp
  | cons f rest =>
    cases rest with
    | nil => cases v <;> simp
    | cons g rest2 => rw [hsc] at h; simp at h

theorem add_deep (s : Chuck_Scope) (xid : Sym) (v : Option Val)
    (h : 1 < s.scope.length) :
    (add s xid v).scope = mapSet (back s) xid v :: s.scope.tail ∧
      (add s xid v).commit_map = s.commit_map := by
  unfold add
  cases hsc : s.scope with
  | nil => rw [hsc] at h; simp at h
  | cons f rest =>
    cases rest with
    | nil => rw [hsc] at h; simp at h
    | cons g rest2 =>
      have hb : back s = f := by unfold back; rw [hsc]; rfl
      cases v <;> simp [hb, hsc]

theorem addAll_depth1 (l : List (Sym × Option Val)) (s : Chuck_Scope)
    (h : s.scope.length ≤ 1) :
    (addAll s l).scope = s.scope ∧
      (addAll s l).commit_map = mapSetAll s.commit_map l := by
  induction l generalizing s with
  | nil => exact ⟨rfl, rfl⟩
  | cons kv rest ih =>
    have h1 := add_depth1 s kv.1 kv.2 h
    have h2 : (add s kv.1 kv.2).scope.length ≤ 1 := by rw [h1.1]; exact h
    have h3 := ih (add s kv.1 kv.2) h2
    refine ⟨?_, ?_⟩
    · show (addAll (add s kv.1 kv.2) rest).scope = s.scope
      rw [h3.1, h1.1]
    · show (addAll (add s kv.1 kv.2) rest).commit_map = mapSetAll s.commit_map (kv :: rest)
      rw [h3.2, h1.2, mapSetAll_cons]

theorem rollback_scope (s : Chuck_Scope) : (rollback s).scope = s.scope := rfl

theorem rollback_commit_map (s : Chuck_Scope) : (rollback s).commit_map = [] := rfl

theorem lookup_commit_map (s : Chuck_Scope) (id : Sym) (climb : Int) :
    ((s.lookup id climb).2).commit_map = s.commit_map := by
  unfold lookup
  by_cases h0 : climb = 0
  · simp only [h0, if_true]
    cases s.scope with
    | nil => rfl
    | cons f rest => rfl
  · by_cases h1 : 0 < climb <;> simp only [h0, if_false, h1, if_true, if_false] <;> rfl

/-! ### Frame mutation under `lookup` (the `operator[]` side effect) -/

theorem mapFind_append_null (m : SMap) (k : Sym) (h : mapFind m k = none) :
    mapFind (m ++ [(k, none)]) k = some none := by
  induction m with
  | nil => simp [mapFind]
  | cons a rest ih =>
    obtain ⟨a1, a2⟩ := a
    by_cases h1 : a1 = k
    · rw [mapFind, if_pos h1] at h
      cases h
    · rw [mapFind, if_neg h1] at h
      simpa [mapFind, h1] using ih h

theorem searchUp_none (id : Sym) (fs : List SMap)
    (h : ∀ f ∈ fs, frameSearch f id = none) : searchUp id fs = none := by
  induction fs with
  | nil => rfl
  | cons f rest ih =>
    rw [searchUp, h f (List.mem_cons_self _ _), ih (fun g hg => h g (List.mem_cons_of_mem _ hg))]
    rfl

theorem climbAll_absent (id : Sym) (fs : List SMap)
    (h : ∀ f ∈ fs, mapFind f id = none) :
    climbAll id fs = (none, fs.map (fun f => f ++ [(id, none)])) := by
  induction fs with
  | nil => rfl
  | cons f rest ih =>
    have hf : mapFind f id = none := h f (List.mem_cons_self _ _)
    have hrest := ih (fun g hg => h g (List.mem_cons_of_mem _ hg))
    rw [climbAll]
    simp [mapIndex, hf, hrest]

theorem climbAll_null_bound (id : Sym) (fs : List SMap)
    (h : ∀ f ∈ fs, mapFind f id = some none) :
    climbAll id fs = (none, fs) := by
  induction fs with
  | nil => rfl
  | cons f rest ih =>
    have hf : mapFind f id = some none := h f (List.mem_cons_self _ _)
    have hrest := ih (fun g hg => h g (List.mem_cons_of_mem _ hg))
    rw [climbAll]
    simp [mapIndex, hf, hrest]

theorem getLastD_irrel (l : List SMap) (d1 d2 : SMap) (h : l ≠ []) :
    l.getLastD d1 = l.getLastD d2 := by
  rw [List.getLastD_eq_getLast?, List.getLastD_eq_getLast?,
    List.getLast?_eq_getLast _ h]
  rfl

theorem indexLast_absent (id : Sym) (fs : List SMap)
    (h : mapFind (fs.getLastD []) id = none) :
    indexLast id fs = (none, setLast fs (fs.getLastD [] ++ [(id, none)])) := by
  induction fs with
  | nil => rfl
  | cons f rest ih =>
    cases rest with
    | nil =>
      rw [List.getLastD_cons] at h
      simp only [List.getLastD_nil] at h
      rw [indexLast]
      simp [mapIndex, h, setLast, List.getLastD_cons]
    | cons g rest2 =>
      have hne : (g :: rest2 : List SMap) ≠ [] := by simp
      have hdd : (g :: rest2).getLastD f = (g :: rest2).getLastD [] :=
        getLastD_irrel _ _ _ hne
      rw [List.getLastD_cons, hdd] at h
      have hrec := ih h
      rw [indexLast, hrec]
      simp [setLast, List.getLastD_cons, hdd]

theorem indexLast_null_bound (id : Sym) (fs : List SMap)
    (h : mapFind (fs.getLastD []) id = some none) :
    indexLast id fs = (none, fs) := by
  induction fs with
  | nil => simp [mapFind] at h
  | cons f rest ih =>
    cases rest with
    | nil =>
      rw [List.getLastD_cons] at h
      simp only [List.getLastD_nil] at h
      rw [indexLast]
      simp [mapIndex, h]
    | cons g rest2 =>
      have hne : (g :: rest2 : List SMap) ≠ [] := by simp
      have hdd : (g :: rest2).getLastD f = (g :: rest2).getLastD [] :=
        getLastD_irrel _ _ _ hne
      rw [List.getLastD_cons, hdd] at h
      rw [indexLast, ih h]

theorem back_mem (s : Chuck_Scope) (h : s.scope ≠ []) : back s ∈ s.scope := by
  unfold back
  cases hsc : s.scope with
  | nil => exact absurd hsc h
  | cons f rest => simp

theorem front_mem (s : Chuck_Scope) (h : s.scope ≠ []) : front s ∈ s.scope := by
  unfold front
  rw [List.getLastD_eq_getLast?, List.getLast?_eq_getLast _ h]
  exact List.getLast_mem h

theorem lookupSpec_none (s : Chuck_Scope) (id : Sym) (climb : Int)
    (h : s.scope ≠ [])
    (habs : ∀ f ∈ s.scope, frameSearch f id = none)
    (hcm : frameSearch s.commit_map id = none) :
    lookupSpec s id climb = none := by
  unfold lookupSpec
  by_cases h0 : climb = 0
  · rw [if_pos h0, habs (back s) (back_mem s h), hcm]
    simp
  · by_cases h1 : 0 < climb
    · rw [if_neg h0, if_pos h1, searchUp_none id s.scope habs, hcm]
      rfl
    · rw [if_neg h0, if_neg h1, habs (front s) (front_mem s h), hcm]
      rfl

theorem lookup_snd_zero (s : Chuck_Scope) (id : Sym) (f : SMap)
    (rest : List SMap) (hs : s.scope = f :: rest) :
    (s.lookup id 0).2 = { s with scope := (mapIndex f id).2 :: rest } := by
  unfold lookup
  rw [if_pos rfl, hs]

theorem lookup_snd_pos (s : Chuck_Scope) (id : Sym) (climb : Int)
    (h : 0 < climb) :
    (s.lookup id climb).2 = { s with scope := (climbAll id s.scope).2 } := by
  unfold lookup
  rw [if_neg (by omega), if_pos h]

theorem lookup_snd_neg (s : Chuck_Scope) (id : Sym) (climb : Int)
    (h : climb < 0) :
    (s.lookup id climb).2 = { s with scope := (indexLast id s.scope).2 } := by
  unfold lookup
  rw [if_neg (by omega), if_neg (by omega)]

theorem mem_setLast (l : List SMap) (m x : SMap) (hx : x ∈ setLast l m) :
    x = m ∨ x ∈ l := by
  induction l with
  | nil => simp [setLast] at hx
  | cons a rest ih =>
    cases rest with
    | nil =>
      simp [setLast] at hx
      exact Or.inl hx
    | cons b rest2 =>
      rw [show setLast (a :: b :: rest2) m = a :: setLast (b :: rest2) m from rfl] at hx
      rcases List.mem_cons.mp hx with h1 | h1
      · exact Or.inr (by simp [h1])
      · rcases ih h1 with h2 | h2
        · exact Or.inl h2
        · exact Or.inr (List.mem_cons_of_mem _ h2)

/-! ### Claim theorems about `Chuck_Scope` -/

/-- C2: `add(id, symbol)` writes the binding directly into the innermost
frame when the stack depth is greater than 1, and into the pending commit
buffer (touching no frame) when the innermost frame is also the outermost;
`commit()` moves every pending-buffer binding into the outermost frame
(pending entries overriding, all other bindings and frames untouched) and
leaves the pending buffer empty. -/
theorem C2_add_two_phase (s : Chuck_Scope) (xid : Sym) (v : Option Val)
    (hnd : (s.commit_map.map Prod.fst).Nodup) :
    (1 < s.scope.length →
      (add s xid v).scope = mapSet (back s) xid v :: s.scope.tail ∧
      (add s xid v).commit_map = s.commit_map) ∧
    (s.scope.length = 1 →
      (add s xid v).scope = s.scope ∧
      (add s xid v).commit_map = mapSet s.commit_map xid v) ∧
    (commit s).commit_map = [] ∧
    (commit s).scope.dropLast = s.scope.dropLast ∧
    (s.scope ≠ [] → ∀ k, mapFind (front (commit s)) k =
      Option.or (mapFind s.commit_map k) (mapFind (front s) k)) := by
  refine ⟨fun h => add_deep s xid v h,
    fun h => add_depth1 s xid v (le_of_eq h), rfl, setLast_dropLast _ _, ?_⟩
  intro h k
  rw [front_commit s h, mapFind_mapSetAll_nodup _ _ _ hnd]

/-- Witness for C2 at a concrete scope of depth 2 with one pending entry. -/
theorem C2_add_two_phase_witness :
    (1 < (push (add mk0 "a" (some 1))).scope.length →
      (add (push (add mk0 "a" (some 1))) "b" (some 2)).scope =
        mapSet (back (push (add mk0 "a" (some 1)))) "b" (some 2) ::
          (push (add mk0 "a" (some 1))).scope.tail ∧
      (add (push (add mk0 "a" (some 1))) "b" (some 2)).commit_map =
        (push (add mk0 "a" (some 1))).commit_map) ∧
    ((push (add mk0 "a" (some 1))).scope.length = 1 →
      (add (push (add mk0 "a" (some 1))) "b" (some 2)).scope =
        (push (add mk0 "a" (some 1))).scope ∧
      (add (push (add mk0 "a" (some 1))) "b" (some 2)).commit_map =
        mapSet (push (add mk0 "a" (some 1))).commit_map "b" (some 2)) ∧
    (commit (push (add mk0 "a" (some 1)))).commit_map = [] ∧
    (commit (push (add mk0 "a" (some 1)))).scope.dropLast =
      (push (add mk0 "a" (some 1))).scope.dropLast ∧
    ((push (add mk0 "a" (some 1))).scope ≠ [] → ∀ k,
      mapFind (front (commit (push (add mk0 "a" (some 1))))) k =
        Option.or (mapFind (push (add mk0 "a" (some 1))).commit_map k)
          (mapFind (front (push (add mk0 "a" (some 1)))) k)) :=
  C2_add_two_phase (push (add mk0 "a" (some 1))) "b" (some 2) (by decide)

/-- C3: `lookup` refines the spec-side search order (`climb = 0`: innermost
frame only, pending buffer only at depth 1; `climb > 0`: innermost to
outermost then pending buffer, first match winning; `climb < 0`: outermost
frame then pending buffer), and an identifier bound nowhere searched yields
`none` rather than an error. -/
theorem C3_lookup_climbs (s : Chuck_Scope) (id : Sym) (climb : Int)
    (h : s.scope ≠ []) :
    (s.lookup id climb).1 = lookupSpec s id climb ∧
    ((∀ f ∈ s.scope, frameSearch f id = none) →
      frameSearch s.commit_map id = none → (s.lookup id climb).1 = none) := by
  refine ⟨lookup_fst s id climb h, fun habs hcm => ?_⟩
  rw [lookup_fst s id climb h]
  exact lookupSpec_none s id climb h habs hcm

/-- Witness for C3: shadowing at a concrete two-frame scope with an inner
`x` binding over an outer one, plus a completely unbound identifier. -/
theorem C3_lookup_climbs_witness :
    ((add (push (commit (add mk0 "x" (some 1)))) "x" (some 2)).lookup "x" 1).1 =
        lookupSpec (add (push (commit (add mk0 "x" (some 1)))) "x" (some 2)) "x" 1 ∧
    (((add (push (commit (add mk0 "x" (some 1)))) "x" (some 2)).lookup "x" 1).1 = some 2 ∧
     ((add (push (commit (add mk0 "x" (some 1)))) "x" (some 2)).lookup "x" (-1)).1 = some 1) ∧
    ((mk0.lookup "zz" 1).1 = lookupSpec mk0 "zz" 1 ∧ (mk0.lookup "zz" 1).1 = none) :=
  ⟨(C3_lookup_climbs (add (push (commit (add mk0 "x" (some 1)))) "x" (some 2)) "x" 1
      (by decide)).1,
   ⟨by decide, by decide⟩,
   (C3_lookup_climbs mk0 "zz" 1 (by decide)).1, by decide⟩

/-- C4: the claim requires `pop()` to release every symbol of the removed
frame, but the code (see the source's `// TODO: release contents of
scope.back()`) deletes the frame without any release: popping a frame never
logs a release event, so a symbol retained by `add` into a transient frame
keeps its reference count after the pop. -/
theorem C4_pop_never_releases :
    (∀ s : Chuck_Scope, (pop s).scope = s.scope.tail ∧ (pop s).log = s.log) ∧
    back (add (push mk0) "x" (some 7)) = [("x", some 7)] ∧
    (pop (add (push mk0) "x" (some 7))).log = [RC.retain 7] :=
  ⟨fun _ => ⟨rfl, rfl⟩, by decide, by decide⟩

/-- C5: after `reset()` the frame stack is exactly one empty frame. -/
theorem C5_reset_single_empty_frame (s : Chuck_Scope) : (reset s).scope = [[]] :=
  rfl

/-- C6: `get_toplevel(includeMangled = true)` returns every outermost-level
binding (outermost frame plus still-pending entries), and
`get_toplevel(includeMangled = false)` returns exactly those whose names do
not contain the sentinel character `@`. -/
theorem C6_get_toplevel_mangled (s : Chuck_Scope) (h : s.scope ≠ []) :
    get_toplevel s true = (topPairs s).map (fun kv => kv.2) ∧
    get_toplevel s false =
      ((topPairs s).filter (fun kv => !(kv.1.toList.contains '@'))).map
        (fun kv => kv.2) := by
  unfold get_toplevel get_level topPairs
  rw [reverse_getD_zero]
  constructor
  · simp [levelEntries, front]
  · simp [levelEntries, is_mangled, front]

/-- Witness for C6 at a scope holding a mangled and an unmangled binding
plus a pending entry. -/
theorem C6_get_toplevel_mangled_witness :
    get_toplevel (add (commit (addAll mk0 [("f@0@Obj", some 3), ("g", some 4)])) "h" (some 5)) true =
      (topPairs (add (commit (addAll mk0 [("f@0@Obj", some 3), ("g", some 4)])) "h" (some 5))).map
        (fun kv => kv.2) ∧
    get_toplevel (add (commit (addAll mk0 [("f@0@Obj", some 3), ("g", some 4)])) "h" (some 5)) false =
      ((topPairs (add (commit (addAll mk0 [("f@0@Obj", some 3), ("g", some 4)])) "h" (some 5))).filter
        (fun kv => !(kv.1.toList.contains '@'))).map (fun kv => kv.2) :=
  C6_get_toplevel_mangled _ (by decide)

/-- C10: `get_level` at level 0 (hence `get_toplevel`) enumerates, after the
outermost frame's bindings, every entry still staged in the pending commit
buffer, so uncommitted top-level symbols are already visible to
introspection listings. -/
theorem C10_pending_visible (s : Chuck_Scope) (b : Bool) (h : s.scope ≠ []) :
    get_level s 0 b = levelEntries b (front s) ++ levelEntries b s.commit_map ∧
    ∀ kv ∈ s.commit_map, kv.2 ∈ get_toplevel s true := by
  constructor
  · unfold get_level
    rw [reverse_getD_zero]
    rfl
  · intro kv hkv
    unfold get_toplevel get_level
    refine List.mem_append_right _ ?_
    simp only [if_pos rfl, levelEntries]
    exact List.mem_map_of_mem _ (List.mem_filter_of_mem hkv (by simp))

/-- C1 as stated is false: it quantifies over every depth-1 scope, but when
the outermost frame already binds one of the added identifiers (here a
committed `x ↦ 1`), a lookup after `add("x", 2); rollback()` finds the old
binding instead of not-found. -/
theorem C1_counterexample :
    (commit (add mk0 "x" (some 1))).scope.length = 1 ∧
    ((rollback (addAll (commit (add mk0 "x" (some 1)))
        [("x", some 2)])).lookup "x" 1).1 = some 1 := by
  constructor <;> rfl

/-- C1 (amended): for a depth-1 scope, after `add`s followed by
`rollback()`, a lookup of any added identifier that was not already visible
before the adds returns not-found, and the frame stack (in particular the
outermost frame) is exactly what it was; after `commit()` instead, every
added identifier's lookup succeeds, and still succeeds after a `push()` and
`pop()` of a transient frame. -/
theorem C1_commit_rollback_atomicity (s : Chuck_Scope)
    (l : List (Sym × Option Val))
    (hdepth : s.scope.length = 1)
    (hnd : (s.commit_map.map Prod.fst).Nodup)
    (hv : ∀ kv ∈ l, kv.2.isSome = true) :
    (∀ kv ∈ l, (s.lookup kv.1 1).1 = none →
      ((rollback (addAll s l)).lookup kv.1 1).1 = none) ∧
    (rollback (addAll s l)).scope = s.scope ∧
    (∀ kv ∈ l, ((commit (addAll s l)).lookup kv.1 1).1.isSome = true) ∧
    (∀ kv ∈ l,
      ((pop (push (commit (addAll s l)))).lookup kv.1 1).1.isSome = true) := by
  obtain ⟨f, hf⟩ : ∃ f, s.scope = [f] := List.length_eq_one.mp hdepth
  have hne : s.scope ≠ [] := by rw [hf]; simp
  have haa := addAll_depth1 l s (le_of_eq hdepth)
  have hrb_scope : (rollback (addAll s l)).scope = s.scope := by
    rw [rollback_scope, haa.1]
  have hrollback : ∀ kv ∈ l, (s.lookup kv.1 1).1 = none →
      ((rollback (addAll s l)).lookup kv.1 1).1 = none := by
    intro kv _ hnone
    have hrne : (rollback (addAll s l)).scope ≠ [] := by rw [hrb_scope]; exact hne
    rw [lookup_fst _ _ _ hrne]
    rw [lookup_fst _ _ _ hne] at hnone
    unfold lookupSpec at hnone ⊢
    rw [if_neg (by omega), if_pos (by omega)] at hnone ⊢
    have hfr : frameSearch f kv.1 = none := by
      rw [hf] at hnone
      unfold searchUp searchUp at hnone
      cases hx : frameSearch f kv.1 with
      | none => rfl
      | some w => rw [hx] at hnone; simp at hnone
    rw [hrb_scope, hf, rollback_commit_map]
    unfold searchUp searchUp
    rw [hfr]
    rfl
  have hcommit : ∀ kv ∈ l,
      ((commit (addAll s l)).lookup kv.1 1).1.isSome = true := by
    intro kv hkv
    have hfr0 : front (addAll s l) = front s := by
      unfold front
      rw [haa.1]
    have hcsl : (commit (addAll s l)).scope =
        setLast s.scope (mapSetAll (front s) (mapSetAll s.commit_map l)) := by
      unfold commit
      rw [haa.1, haa.2, hfr0]
    have hfront : front s = f := by unfold front; rw [hf]; rfl
    have hcs : (commit (addAll s l)).scope =
        [mapSetAll f (mapSetAll s.commit_map l)] := by
      rw [hcsl, hf, hfront]
      rfl
    have hcne : (commit (addAll s l)).scope ≠ [] := by rw [hcs]; simp
    rw [lookup_fst _ _ _ hcne]
    unfold lookupSpec
    rw [if_neg (by omega), if_pos (by omega), hcs]
    obtain ⟨v, hfind⟩ := mapFind_mapSetAll_mem_isSome l s.commit_map kv.1
      (List.mem_map_of_mem _ hkv) hv
    have hnd2 : ((mapSetAll s.commit_map l).map Prod.fst).Nodup :=
      nodup_keys_mapSetAll l s.commit_map hnd
    have hfind2 : mapFind (mapSetAll f (mapSetAll s.commit_map l)) kv.1 =
        some (some v) := by
      rw [mapFind_mapSetAll_nodup _ _ _ hnd2, hfind]
      rfl
    unfold searchUp searchUp frameSearch
    rw [hfind2]
    rfl
  refine ⟨hrollback, hrb_scope, hcommit, fun kv hkv => ?_⟩
  rw [pop_push]
  exact hcommit kv hkv

/-- Witness for C1 on a fresh scope with a single added binding. -/
theorem C1_commit_rollback_atomicity_witness :
    ((∀ kv ∈ [(("x" : Sym), some (5 : Val))], (mk0.lookup kv.1 1).1 = none →
      ((rollback (addAll mk0 [("x", some 5)])).lookup kv.1 1).1 = none) ∧
    (rollback (addAll mk0 [("x", some 5)])).scope = mk0.scope ∧
    (∀ kv ∈ [(("x" : Sym), some (5 : Val))],
      ((commit (addAll mk0 [("x", some 5)])).lookup kv.1 1).1.isSome = true) ∧
    (∀ kv ∈ [(("x" : Sym), some (5 : Val))],
      ((pop (push (commit (addAll mk0 [("x", some 5)])))).lookup kv.1 1).1.isSome = true)) ∧
    ((commit (addAll mk0 [("x", some 5)])).lookup "x" 1).1 = some 5 :=
  ⟨C1_commit_rollback_atomicity mk0 [("x", some 5)] (by decide) (by decide)
      (by decide),
   by decide⟩

/-- C9: `lookup` is not read-only — when the identifier is absent from every
frame (and from the pending buffer), the frames consulted through
`operator[]` each gain a default-inserted NULL entry (`climb = 0`: the
innermost frame; `climb > 0`: every frame; `climb < 0`: the outermost
frame), so the scope's map contents change, while the lookup itself and all
later lookups still report not-found. -/
theorem C9_lookup_not_readonly (s : Chuck_Scope) (id : Sym) (climb : Int)
    (h : s.scope ≠ [])
    (habs : ∀ f ∈ s.scope, mapFind f id = none)
    (hcm : mapFind s.commit_map id = none) :
    (s.lookup id climb).1 = none ∧
    (s.lookup id climb).2 ≠ s ∧
    (climb = 0 → (s.lookup id climb).2.scope =
      (back s ++ [(id, none)]) :: s.scope.tail) ∧
    (0 < climb → (s.lookup id climb).2.scope =
      s.scope.map (fun f => f ++ [(id, none)])) ∧
    (climb < 0 → (s.lookup id climb).2.scope =
      setLast s.scope (front s ++ [(id, none)])) ∧
    ((s.lookup id climb).2.lookup id climb).1 = none := by
  have habs2 : ∀ f ∈ s.scope, frameSearch f id = none := by
    intro f hf
    unfold frameSearch
    rw [habs f hf]
    rfl
  have hcm2 : frameSearch s.commit_map id = none := by
    unfold frameSearch
    rw [hcm]
    rfl
  obtain ⟨f0, rest0, hs⟩ : ∃ f0 rest0, s.scope = f0 :: rest0 := by
    cases hsc : s.scope with
    | nil => exact absurd hsc h
    | cons a b => exact ⟨a, b, rfl⟩
  have hback : back s = f0 := by unfold back; rw [hs]; rfl
  have hzero : ∀ hc : climb = 0, (s.lookup id climb).2.scope =
      (back s ++ [(id, none)]) :: s.scope.tail := by
    intro hc
    subst hc
    rw [lookup_snd_zero s id f0 rest0 hs]
    rw [mapIndex_snd_of_find_eq_none _ _ (habs f0 (by rw [hs]; exact List.mem_cons_self _ _))]
    rw [hback, hs]
    rfl
  have hpos : ∀ hc : 0 < climb, (s.lookup id climb).2.scope =
      s.scope.map (fun f => f ++ [(id, none)]) := by
    intro hc
    rw [lookup_snd_pos s id climb hc]
    show (climbAll id s.scope).2 = _
    rw [climbAll_absent id s.scope habs]
  have hneg : ∀ hc : climb < 0, (s.lookup id climb).2.scope =
      setLast s.scope (front s ++ [(id, none)]) := by
    intro hc
    rw [lookup_snd_neg s id climb hc]
    show (indexLast id s.scope).2 = _
    rw [indexLast_absent id s.scope (habs _ (front_mem s h))]
    rfl
  have hfst : (s.lookup id climb).1 = none := by
    rw [lookup_fst s id climb h]
    exact lookupSpec_none s id climb h habs2 hcm2
  have hscope_ne : (s.lookup id climb).2.scope ≠ s.scope := by
    rcases lt_trichotomy climb 0 with hc | hc | hc
    · rw [hneg hc]
      intro heq
      have h1 : (setLast s.scope (front s ++ [(id, none)])).getLastD [] =
          s.scope.getLastD [] := by rw [heq]
      rw [setLast_getLastD _ _ _ h] at h1
      have h2 : (front s ++ [(id, none)]).length = (front s).length := by
        rw [h1]; rfl
      simp at h2
    · rw [hzero hc, hs]
      intro heq
      have h1 := (List.cons.injEq _ _ _ _).mp heq
      have h2 : (f0 ++ [(id, none)]).length = f0.length := by
        rw [hback] at h1
        rw [h1.1]
      simp at h2
    · rw [hpos hc, hs]
      intro heq
      simp only [List.map_cons] at heq
      have h1 := (List.cons.injEq _ _ _ _).mp heq
      have h2 : (f0 ++ [(id, none)]).length = f0.length := by rw [h1.1]
      simp at h2
  have hne : (s.lookup id climb).2 ≠ s := fun heq => hscope_ne (by rw [heq])
  have htcm : (s.lookup id climb).2.commit_map = s.commit_map :=
    lookup_commit_map s id climb
  have hre : (((s.lookup id climb).2).lookup id climb).1 = none := by
    rcases lt_trichotomy climb 0 with hc | hc | hc
    · have ht : (s.lookup id climb).2.scope ≠ [] := by
        rw [hneg hc]
        intro heq
        have := setLast_length s.scope (front s ++ [(id, none)])
        rw [heq] at this
        cases hsx : s.scope with
        | nil => exact h hsx
        | cons a b => rw [hsx] at this; simp at this
      rw [lookup_fst _ id climb ht]
      refine lookupSpec_none _ id climb ht ?_ ?_
      · intro f2 hf2
        rw [hneg hc] at hf2
        rcases mem_setLast _ _ _ hf2 with h1 | h1
        · subst h1
          unfold frameSearch
          rw [mapFind_append_null _ _ (habs _ (front_mem s h))]
          rfl
        · exact habs2 f2 h1
      · rw [htcm]
        exact hcm2
    · have ht : (s.lookup id climb).2.scope ≠ [] := by
        rw [hzero hc]
        simp
      rw [lookup_fst _ id climb ht]
      refine lookupSpec_none _ id climb ht ?_ ?_
      · intro f2 hf2
        rw [hzero hc, hs] at hf2
        rcases List.mem_cons.mp hf2 with h1 | h1
        · subst h1
          unfold frameSearch
          rw [hback, mapFind_append_null _ _ (habs f0 (by rw [hs]; exact List.mem_cons_self _ _))]
          rfl
        · exact habs2 f2 (by rw [hs]; exact List.mem_cons_of_mem _ h1)
      · rw [htcm]
        exact hcm2
    · have ht : (s.lookup id climb).2.scope ≠ [] := by
        rw [hpos hc, hs]
        simp
      rw [lookup_fst _ id climb ht]
      refine lookupSpec_none _ id climb ht ?_ ?_
      · intro f2 hf2
        rw [hpos hc] at hf2
        obtain ⟨f3, hf3, hf3e⟩ := List.mem_map.mp hf2
        subst hf3e
        unfold frameSearch
        rw [mapFind_append_null _ _ (habs f3 hf3)]
        rfl
      · rw [htcm]
        exact hcm2
  exact ⟨hfst, hne, hzero, hpos, hneg, hre⟩

/-- Witness for C9: looking up an unbound identifier in a fresh scope
default-inserts a NULL entry into its only frame. -/
theorem C9_lookup_not_readonly_witness :
    ((mk0.lookup "y" 1).1 = none ∧
    (mk0.lookup "y" 1).2 ≠ mk0 ∧
    ((1 : Int) = 0 → (mk0.lookup "y" 1).2.scope =
      (back mk0 ++ [("y", none)]) :: mk0.scope.tail) ∧
    ((0 : Int) < 1 → (mk0.lookup "y" 1).2.scope =
      mk0.scope.map (fun f => f ++ [("y", none)])) ∧
    ((1 : Int) < 0 → (mk0.lookup "y" 1).2.scope =
      setLast mk0.scope (front mk0 ++ [("y", none)])) ∧
    (((mk0.lookup "y" 1).2).lookup "y" 1).1 = none) ∧
    (mk0.lookup "y" 1).2.scope = [[("y", none)]] :=
  ⟨C9_lookup_not_readonly mk0 "y" 1 (by decide) (by decide) (by decide), by decide⟩

/-- Witness for C10 at a scope with one committed and one pending entry. -/
theorem C10_pending_visible_witness :
    (get_level (add (commit (add mk0 "a" (some 1))) "p" (some 9)) 0 true =
      levelEntries true (front (add (commit (add mk0 "a" (some 1))) "p" (some 9))) ++
        levelEntries true (add (commit (add mk0 "a" (some 1))) "p" (some 9)).commit_map) ∧
    ∀ kv ∈ (add (commit (add mk0 "a" (some 1))) "p" (some 9)).commit_map,
      kv.2 ∈ get_toplevel (add (commit (add mk0 "a" (some 1))) "p" (some 9)) true :=
  C10_pending_visible (add (commit (add mk0 "a" (some 1))) "p" (some 9)) true (by decide)

end Chuck_Scope

/-! ### Dependency-graph lemmas -/

namespace DepGraph

theorem unvisitedWeight_set (store : GStore) (g : Nat) (n : GNode) (tok : Nat)
    (hg : store[g]? = some n) (hn : ¬ n.token = tok) :
    unvisitedWeight store tok =
      unvisitedWeight (store.set g { n with token := tok }) tok
        + (1 + n.remotes.length) := by
  induction store generalizing g with
  | nil => cases hg
  | cons m rest ih =>
    cases g with
    | zero =>
      have hm : m = n := by
        rw [List.getElem?_cons_zero] at hg
        exact Option.some.inj hg
      subst hm
      show (if m.token = tok then 0 else 1 + m.remotes.length) + unvisitedWeight rest tok =
        ((if tok = tok then 0 else 1 + m.remotes.length) + unvisitedWeight rest tok)
          + (1 + m.remotes.length)
      rw [if_neg hn, if_pos rfl]
      omega
    | succ g2 =>
      rw [List.getElem?_cons_succ] at hg
      show (if m.token = tok then 0 else 1 + m.remotes.length) + unvisitedWeight rest tok =
        ((if m.token = tok then 0 else 1 + m.remotes.length)
          + unvisitedWeight (rest.set g2 { n with token := tok }) tok)
          + (1 + n.remotes.length)
      rw [ih g2 hg]
      omega

theorem token_le_maxToken (store : GStore) (n : GNode) (h : n ∈ store) :
    n.token ≤ maxToken store := by
  induction store with
  | nil => cases h
  | cons m rest ih =>
    rcases List.mem_cons.mp h with h1 | h1
    · subst h1
      show n.token ≤ max n.token (maxToken rest)
      exact le_max_left _ _
    · exact le_trans (ih h1) (le_max_right _ _)

theorem shape_set_token (store : GStore) (g : Nat) (n : GNode) (tok : Nat)
    (hg : store[g]? = some n) :
    (store.set g { n with token := tok }).map (fun m => (m.directs, m.remotes))
      = store.map (fun m => (m.directs, m.remotes)) := by
  induction store generalizing g with
  | nil => cases hg
  | cons m rest ih =>
    cases g with
    | zero =>
      have hm : m = n := by
        rw [List.getElem?_cons_zero] at hg
        exact Option.some.inj hg
      subst hm
      rfl
    | succ g2 =>
      rw [List.getElem?_cons_succ] at hg
      show (m.directs, m.remotes) ::
          (rest.set g2 { n with token := tok }).map (fun m => (m.directs, m.remotes))
        = (m.directs, m.remotes) :: rest.map (fun m => (m.directs, m.remotes))
      rw [ih g2 hg]

theorem locateRec_shape (fuel : Nat) (store : GStore) (tok pos : Nat)
    (icd : Bool) (pending : List Nat)
    (r : Option Chuck_Value_Dependency) (store2 : GStore)
    (h : locateRec fuel store tok pos icd pending = some (r, store2)) :
    store2.map (fun m => (m.directs, m.remotes))
      = store.map (fun m => (m.directs, m.remotes)) := by
  induction fuel generalizing store pending with
  | zero =>
    cases pending with
    | nil =>
      rw [show locateRec 0 store tok pos icd [] = some (none, store) from rfl] at h
      cases h
      rfl
    | cons g rest => cases h
  | succ fuel ih =>
    cases pending with
    | nil =>
      rw [show locateRec (fuel + 1) store tok pos icd [] = some (none, store) from rfl] at h
      cases h
      rfl
    | cons g rest =>
      rw [show locateRec (fuel + 1) store tok pos icd (g :: rest) =
        (match store[g]? with
         | none => locateRec fuel store tok pos icd rest
         | some n =>
           if n.token = tok then locateRec fuel store tok pos icd rest
           else
             match locateLocal n pos icd with
             | some d => some (some d, store.set g { n with token := tok })
             | none => locateRec fuel (store.set g { n with token := tok })
                 tok pos icd (n.remotes ++ rest)) from rfl] at h
      cases hg : store[g]? with
      | none =>
        rw [hg] at h
        exact ih store rest h
      | some n =>
        rw [hg] at h
        dsimp only at h
        by_cases ht : n.token = tok
        · rw [if_pos ht] at h
          exact ih store rest h
        · rw [if_neg ht] at h
          cases hl : locateLocal n pos icd with
          | some d =>
            rw [hl] at h
            cases h
            exact shape_set_token store g n tok hg
          | none =>
            rw [hl] at h
            have h2 := ih (store.set g { n with token := tok }) (n.remotes ++ rest) h
            rw [h2]
            exact shape_set_token store g n tok hg

theorem locate_fst_of_empty (store : GStore) (g : Nat) (pos : Nat) (icd : Bool)
    (hdir : ∀ n, store[g]? = some n → n.directs = [] ∧ n.remotes = []) :
    (locate store g pos icd).1 = none ∧ (locate store g pos icd).2.map
      (fun m => (m.directs, m.remotes))
      = store.map (fun m => (m.directs, m.remotes)) := by
  unfold locate
  cases hg : store[g]? with
  | none =>
    rw [show locateRec (unvisitedWeight store (maxToken store + 1) + 1) store
        (maxToken store + 1) pos icd [g] =
      (match store[g]? with
       | none => locateRec (unvisitedWeight store (maxToken store + 1)) store
           (maxToken store + 1) pos icd []
       | some n =>
         if n.token = maxToken store + 1 then
           locateRec (unvisitedWeight store (maxToken store + 1)) store
             (maxToken store + 1) pos icd []
         else
           match locateLocal n pos icd with
           | some d => some (some d, store.set g { n with token := maxToken store + 1 })
           | none => locateRec (unvisitedWeight store (maxToken store + 1))
               (store.set g { n with token := maxToken store + 1 })
               (maxToken store + 1) pos icd (n.remotes ++ [])) from rfl, hg]
    cases hw : unvisitedWeight store (maxToken store + 1) with
    | zero => exact ⟨rfl, rfl⟩
    | succ w => exact ⟨rfl, rfl⟩
  | some n =>
    have hne : ¬ n.token = maxToken store + 1 := by
      have := token_le_maxToken store n (List.getElem?_mem hg)
      omega
    have hd := hdir n hg
    have hloc : locateLocal n pos icd = none := by
      unfold locateLocal
      rw [hd.1]
      rfl
    rw [show locateRec (unvisitedWeight store (maxToken store + 1) + 1) store
        (maxToken store + 1) pos icd [g] =
      (match store[g]? with
       | none => locateRec (unvisitedWeight store (maxToken store + 1)) store
           (maxToken store + 1) pos icd []
       | some n2 =>
         if n2.token = maxToken store + 1 then
           locateRec (unvisitedWeight store (maxToken store + 1)) store
             (maxToken store + 1) pos icd []
         else
           match locateLocal n2 pos icd with
           | some d => some (some d, store.set g { n2 with token := maxToken store + 1 })
           | none => locateRec (unvisitedWeight store (maxToken store + 1))
               (store.set g { n2 with token := maxToken store + 1 })
               (maxToken store + 1) pos icd (n2.remotes ++ [])) from rfl, hg]
    dsimp only
    rw [if_neg hne, hloc]
    dsimp only
    rw [hd.2]
    have hshape := shape_set_token store g n (maxToken store + 1) hg
    rw [hd.2] at hshape
    cases hw : unvisitedWeight store (maxToken store + 1) with
    | zero =>
      refine ⟨rfl, ?_⟩
      dsimp only
      exact hshape
    | succ w =>
      refine ⟨rfl, ?_⟩
      dsimp only
      exact hshape

theorem locateRec_isSome (fuel : Nat) (store : GStore) (tok pos : Nat)
    (icd : Bool) (pending : List Nat)
    (h : unvisitedWeight store tok + pending.length ≤ fuel) :
    (locateRec fuel store tok pos icd pending).isSome = true := by
  induction fuel generalizing store pending with
  | zero =>
    cases pending with
    | nil => rfl
    | cons g rest =>
      exfalso
      have hlen : (g :: rest).length = rest.length + 1 := rfl
      omega
  | succ fuel ih =>
    cases pending with
    | nil => rfl
    | cons g rest =>
      have hlen : (g :: rest).length = rest.length + 1 := rfl
      rw [show locateRec (fuel + 1) store tok pos icd (g :: rest) =
        (match store[g]? with
         | none => locateRec fuel store tok pos icd rest
         | some n =>
           if n.token = tok then locateRec fuel store tok pos icd rest
           else
             match locateLocal n pos icd with
             | some d => some (some d, store.set g { n with token := tok })
             | none => locateRec fuel (store.set g { n with token := tok })
                 tok pos icd (n.remotes ++ rest)) from rfl]
      cases hg : store[g]? with
      | none =>
        dsimp only
        exact ih store rest (by omega)
      | some n =>
        dsimp only
        by_cases ht : n.token = tok
        · rw [if_pos ht]
          exact ih store rest (by omega)
        · rw [if_neg ht]
          cases hl : locateLocal n pos icd with
          | some d => rfl
          | none =>
            dsimp only
            have hw := unvisitedWeight_set store g n tok hg ht
            have hlen2 : (n.remotes ++ rest).length = n.remotes.length + rest.length :=
              List.length_append _ _
            exact ih (store.set g { n with token := tok }) (n.remotes ++ rest)
              (by omega)

/-- C7: `locate` terminates on every dependency-graph store, including ones
whose remote links form cycles: the per-query visitation token lets each
graph be visited at most once, so the traversal's total work is bounded by
the unvisited weight (one step per graph plus one pending slot per remote
edge), and the fuel-instrumented depth-first recursion — in particular the
exact run `locate` performs with its fresh token — never exhausts its
fuel. -/
theorem C7_locate_terminates (store : GStore) (tok pos : Nat) (icd : Bool)
    (pending : List Nat) (fuel : Nat)
    (h : unvisitedWeight store tok + pending.length ≤ fuel) :
    (locateRec fuel store tok pos icd pending).isSome = true ∧
    ∀ g pos2 icd2, (locateRec (unvisitedWeight store (maxToken store + 1) + 1)
      store (maxToken store + 1) pos2 icd2 [g]).isSome = true :=
  ⟨locateRec_isSome fuel store tok pos icd pending h,
   fun g pos2 icd2 => locateRec_isSome _ store (maxToken store + 1) pos2 icd2 [g]
     (le_of_eq rfl)⟩

/-- Witness for C7 on a two-graph store whose remote links form a cycle
(graph 0 points to graph 1 and conversely). -/
theorem C7_locate_terminates_witness :
    (locateRec 5 [⟨0, [], [1]⟩, ⟨0, [], [0]⟩] 1 3 false [0]).isSome = true ∧
    ∀ g pos2 icd2, (locateRec
      (unvisitedWeight [⟨0, [], [1]⟩, ⟨0, [], [0]⟩]
        (maxToken [⟨0, [], [1]⟩, ⟨0, [], [0]⟩] + 1) + 1)
      [⟨0, [], [1]⟩, ⟨0, [], [0]⟩]
      (maxToken [⟨0, [], [1]⟩, ⟨0, [], [0]⟩] + 1) pos2 icd2 [g]).isSome = true :=
  C7_locate_terminates [⟨0, [], [1]⟩, ⟨0, [], [0]⟩] 1 3 false [0] 5 (by decide)

/-- C8: after `clear()` empties a graph's direct and remote dependency
lists, every subsequent `locate` query on that graph — including queries run
on the store state that an earlier post-clear `locate` returned — reports no
dependency. -/
theorem C8_clear_then_locate_none (store : GStore) (g : Nat)
    (pos pos2 : Nat) (icd icd2 : Bool) :
    (locate (clear store g) g pos icd).1 = none ∧
    (locate ((locate (clear store g) g pos icd).2) g pos2 icd2).1 = none := by
  have hclear : ∀ n, (clear store g)[g]? = some n →
      n.directs = [] ∧ n.remotes = [] := by
    intro n hn
    unfold clear at hn
    cases hg : store[g]? with
    | none =>
      rw [hg] at hn
      dsimp only at hn
      rw [hg] at hn
      cases hn
    | some m =>
      rw [hg] at hn
      dsimp only at hn
      have hlt : g < store.length := by
        by_contra hc
        rw [List.getElem?_eq_none (by omega)] at hg
        cases hg
      rw [List.getElem?_set_self (by simpa using hlt)] at hn
      have := Option.some.inj hn
      rw [← this]
      exact ⟨rfl, rfl⟩
  have h1 := locate_fst_of_empty (clear store g) g pos icd hclear
  have hclear2 : ∀ n, ((locate (clear store g) g pos icd).2)[g]? = some n →
      n.directs = [] ∧ n.remotes = [] := by
    intro n hn
    have hmap : (((locate (clear store g) g pos icd).2).map
        (fun m => (m.directs, m.remotes)))[g]? =
      (((clear store g)).map (fun m => (m.directs, m.remotes)))[g]? := by
      rw [h1.2]
    rw [List.getElem?_map, List.getElem?_map, hn] at hmap
    cases hcg : (clear store g)[g]? with
    | none =>
      rw [hcg] at hmap
      cases hmap
    | some m =>
      rw [hcg] at hmap
      have hfm := Option.some.inj hmap
      have hm := hclear m hcg
      have h3 : m.directs = n.directs ∧ m.remotes = n.remotes := by
        have := Prod.mk.injEq (n.directs) (n.remotes) (m.directs) (m.remotes)
        constructor
        · exact (congrArg Prod.fst hfm).symm
        · exact (congrArg Prod.snd hfm).symm
      exact ⟨h3.1 ▸ hm.1, h3.2 ▸ hm.2⟩
  exact ⟨h1.1,
    (locate_fst_of_empty ((locate (clear store g) g pos icd).2) g pos2 icd2
      hclear2).1⟩

end DepGraph

end Chuck
